import Mathlib

set_option maxRecDepth 8000

/-!
Shallow embedding of the yaml metadata block-capsule codec from
`src/gwt/panmirror/src/editor/src/nodes/yaml_metadata/yaml_metadata.ts`.

Text is represented as `List Char`.  The capsule placeholder codec that the
yaml filter uses (`kEncodedBlockCapsuleRegEx`, `parsePandocBlockCapsule`, the
block capsule scanner and the capsule registry) lives in a pandoc api module
that is not among the sampled sources; those pieces are modelled from the
design document and are marked `Modelled from the spec:` below.  Everything
else (the yaml match pattern, `enclose`, `handleText`, `handleToken`,
`writeNode` and the serialization writer) is translated directly from the
source file.
-/

namespace YamlCapsule

/-- The capsule type tag of the yaml metadata filter
(`yaml_metadata.ts` line 32, with `toLowerCase` already applied). -/
def kYamlMetadataCapsuleType : List Char :=
  "e1819605-0acd-4fae-8b99-9c1b7bd7c0f1".data

/-- Modelled from the spec: a capsule record (§3 `CapsuleRecord`) created by
the Block Capsule Scanner and stored in the per-pass registry; the record
type itself is declared in the pandoc api module, which is not under the
sampled sources. -/
structure CapsuleRecord where
  id : Nat
  type : List Char
  source : List Char
  enclosedText : List Char
deriving DecidableEq

/-- Modelled from the spec: the per-pass capsule registry (§3
`CapsuleRegistry`), looked up by the type+id compound key (§8
"Type-scoping ... must use type+id compound key"). -/
def capLookup (reg : List CapsuleRecord) (ty : List Char) (id : Nat) :
    Option CapsuleRecord :=
  reg.find? fun r => r.type == ty && r.id == id

/-- Modelled from the spec: the sentinel marker embedded in every placeholder
(§3 `Placeholder`: "Uniqueness is reinforced by an embedded random/type
marker"); the concrete marker constant is in the pandoc api module, which is
not under the sampled sources. -/
def capSentinel : List Char := "@cap@".data

/-- Value of a list of decimal digit characters. -/
def digitsVal (ds : List Char) : Nat :=
  ds.foldl (fun n c => n * 10 + (c.toNat - '0'.toNat)) 0

/-- Decimal digit characters of a natural number. -/
def natChars (n : Nat) : List Char := Nat.toDigits 10 n

/-- Modelled from the spec: the placeholder text for a capsule, "an opaque
text token embedding `type` and `id`" (§3 `Placeholder`), delimited by the
sentinel marker. -/
def capText (ty : List Char) (id : Nat) : List Char :=
  capSentinel ++ ':' :: (ty ++ ':' :: (natChars id ++ ':' :: capSentinel))

/-- Modelled from the spec: recognition and field extraction of one encoded
placeholder at the head of the text, combining `kEncodedBlockCapsuleRegEx`
and `parsePandocBlockCapsule`, which are not under the sampled sources.  On
success it returns the embedded type, the embedded id, the full matched
placeholder text and the remaining input. -/
def capParse (cs : List Char) : Option (List Char × Nat × List Char × List Char) :=
  if cs.take capSentinel.length = capSentinel then
    match cs.drop capSentinel.length with
    | ':' :: r2 =>
      let ty := r2.takeWhile fun c => c != ':'
      match r2.drop ty.length with
      | ':' :: r4 =>
        let ds := r4.takeWhile fun c => c.isDigit
        if ds.isEmpty then none
        else
          match r4.drop ds.length with
          | ':' :: r6 =>
            if r6.take capSentinel.length = capSentinel then
              some (ty, digitsVal ds,
                capSentinel ++ ':' :: (ty ++ ':' :: (ds ++ ':' :: capSentinel)),
                r6.drop capSentinel.length)
            else none
          | _ => none
      | _ => none
    | _ => none
  else none

/-- Replacement performed for one placeholder match, translated from the
replacer callback of `handleText` (`yaml_metadata.ts` lines 72-80): if the
parsed capsule's type is the yaml type, substitute the capsule's source,
otherwise return the match unchanged.  The capsule source comes from the
registry record (spec §4.3); a lookup miss leaves the match unchanged
(spec §7: "Registry lookup miss during residual decode: silent no-op"). -/
def capReplace (reg : List CapsuleRecord) (ty : List Char) (id : Nat)
    (m : List Char) : List Char :=
  if ty = kYamlMetadataCapsuleType then
    match capLookup reg ty id with
    | some r => r.source
    | none => m
  else m

/-- Left-to-right, non-overlapping global replacement of placeholder matches,
translated from `text.replace(kEncodedBlockCapsuleRegEx, ...)` in
`handleText` (`yaml_metadata.ts` lines 69-81).  The fuel argument bounds the
recursion; any fuel of at least the text's length gives the replacement. -/
def decodeAux (reg : List CapsuleRecord) : Nat → List Char → List Char
  | 0, cs => cs
  | fuel + 1, cs =>
    match capParse cs with
    | some (ty, id, m, rest) => capReplace reg ty id m ++ decodeAux reg fuel rest
    | none =>
      match cs with
      | [] => []
      | c :: tl => c :: decodeAux reg fuel tl

/-- The yaml filter's `handleText` (`yaml_metadata.ts` lines 69-81),
parameterized by the per-pass registry. -/
def handleText (reg : List CapsuleRecord) (cs : List Char) : List Char :=
  decodeAux reg cs.length cs

/-- Whether a placeholder occurrence with this embedded type and id would be
substituted by the yaml filter: the type is the yaml capsule type and the id
is live in the registry. -/
def liveCap (reg : List CapsuleRecord) (ty : List Char) (id : Nat) : Bool :=
  ty == kYamlMetadataCapsuleType && (capLookup reg ty id).isSome

/-- Whether the text contains a placeholder occurrence that the yaml filter
would substitute. -/
def hasLiveB (reg : List CapsuleRecord) (cs : List Char) : Bool :=
  (List.range (cs.length + 1)).any fun i =>
    match capParse (cs.drop i) with
    | some (ty, id, _, _) => liveCap reg ty id
    | none => false

/-- Whether every placeholder occurrence in the text has an id that misses
the registry. -/
def occLookupMissB (reg : List CapsuleRecord) (cs : List Char) : Bool :=
  (List.range (cs.length + 1)).all fun i =>
    match capParse (cs.drop i) with
    | some (ty, id, _, _) => (capLookup reg ty id).isNone
    | none => true

/-- Whether the text contains no placeholder occurrence at all. -/
def noCapOccB (cs : List Char) : Bool :=
  (List.range (cs.length + 1)).all fun i => (capParse (cs.drop i)).isNone

/-- Whether the text contains a placeholder occurrence whose embedded type is
the yaml capsule type. -/
def hasYamlOccB (cs : List Char) : Bool :=
  (List.range (cs.length + 1)).any fun i =>
    match capParse (cs.drop i) with
    | some (ty, _, _, _) => ty == kYamlMetadataCapsuleType
    | none => false

/-- One segment of the decoder's decomposition of its input: either a literal
character copied verbatim, or a complete placeholder match (embedded type,
embedded id, matched text). -/
inductive ScanSeg where
  | lit : Char → ScanSeg
  | cap : List Char → Nat → List Char → ScanSeg
deriving DecidableEq

/-- Input text covered by a segment. -/
def segIn : ScanSeg → List Char
  | .lit c => [c]
  | .cap _ _ m => m

/-- Output text produced for a segment by the yaml filter's decoder. -/
def segOut (reg : List CapsuleRecord) : ScanSeg → List Char
  | .lit c => [c]
  | .cap ty id m => capReplace reg ty id m

/-- Input text covered by a list of segments. -/
def segsIn (l : List ScanSeg) : List Char := (l.map segIn).flatten

/-- Output text produced for a list of segments. -/
def segsOut (reg : List CapsuleRecord) (l : List ScanSeg) : List Char :=
  (l.map (segOut reg)).flatten

/-- Decomposition of the input into literal characters and placeholder
matches, following exactly the scan order of `decodeAux`. -/
def segsAux : Nat → List Char → List ScanSeg
  | 0, _ => []
  | fuel + 1, cs =>
    match capParse cs with
    | some (ty, id, m, rest) => .cap ty id m :: segsAux fuel rest
    | none =>
      match cs with
      | [] => []
      | c :: tl => .lit c :: segsAux fuel tl

/-- Pandoc token kinds used by the yaml filter (`PandocTokenType`). -/
inductive PandocTokenType where
  | Para
  | Plain
  | Str
  | Header
  | CodeBlock
deriving DecidableEq

/-- A pandoc token: its `c` payload is either an array of child tokens or a
string, as in the source's `PandocToken`. -/
inductive PandocToken where
  | node : PandocTokenType → List PandocToken → PandocToken
  | textTok : PandocTokenType → List Char → PandocToken

/-- Modelled from the spec: the first placeholder match in the text at or
after the scan cursor, as returned by `text.match(kEncodedBlockCapsuleRegEx)`
(the regex module is not under the sampled sources).  Returns the embedded
type, the embedded id and the matched text of the earliest match. -/
def capFirstMatchFrom (start : Nat) (s : List Char) :
    Option (List Char × Nat × List Char) :=
  (List.range (s.length + 1)).findSome? fun i =>
    if i < start then none
    else
      match capParse (s.drop i) with
      | some (ty, id, m, _) => some (ty, id, m)
      | none => none

/-- First placeholder match in the text, scanning from the start. -/
def capFirstMatch (s : List Char) : Option (List Char × Nat × List Char) :=
  capFirstMatchFrom 0 s

/-- The yaml filter's `handleToken` (`yaml_metadata.ts` lines 83-98),
generalized over the scan start position of the shared regex: a paragraph
token whose content is exactly one string run is probed for a placeholder
match; the first match is claimed when its embedded type is the yaml type. -/
def handleTokenFrom (start : Nat) (tok : PandocToken) : Option (List Char) :=
  match tok with
  | .node .Para [.textTok .Str s] =>
    match capFirstMatchFrom start s with
    | some (ty, _, m) =>
      if ty = kYamlMetadataCapsuleType then some m else none
    | none => none
  | _ => none

/-- The yaml filter's `handleToken` with the scan cursor at zero. -/
def handleToken (tok : PandocToken) : Option (List Char) :=
  handleTokenFrom 0 tok

/-- Modelled from the spec: the mutable global scan cursor of the shared
regex object (`kEncodedBlockCapsuleRegEx.lastIndex`). -/
structure RegexGlobalState where
  lastIndex : Nat

/-- Stateful `handleText`: the shared scan cursor is explicitly reset to zero
before scanning (`yaml_metadata.ts` line 70), the scan then proceeds from
the cursor. -/
def handleTextS (reg : List CapsuleRecord) (st : RegexGlobalState)
    (text : List Char) : List Char × RegexGlobalState :=
  let st0 : RegexGlobalState := ⟨0⟩
  (text.take st0.lastIndex ++ handleText reg (text.drop st0.lastIndex), ⟨0⟩)

/-- Stateful `handleToken`: the shared scan cursor is explicitly reset to
zero before matching (`yaml_metadata.ts` line 87). -/
def handleTokenS (st : RegexGlobalState) (tok : PandocToken) :
    Option (List Char) × RegexGlobalState :=
  let st0 : RegexGlobalState := ⟨0⟩
  (handleTokenFrom st0.lastIndex tok, ⟨0⟩)

/-- A call into the codec, for tracking the shared regex state across call
histories. -/
inductive CodecCall where
  | textCall : List Char → CodecCall
  | tokenCall : PandocToken → CodecCall

/-- Thread the shared regex state through a history of codec calls. -/
def runCalls (reg : List CapsuleRecord) :
    List CodecCall → RegexGlobalState → RegexGlobalState
  | [], st => st
  | .textCall s :: rest, st => runCalls reg rest (handleTextS reg st s).2
  | .tokenCall t :: rest, st => runCalls reg rest (handleTokenS st t).2

/-- Character class `[\t >]` of the yaml match pattern (leading context). -/
def fenceClassB (c : Char) : Bool := c == '\t' || c == ' ' || c == '>'

/-- Character class `[ \t]` of the yaml match pattern. -/
def hspB (c : Char) : Bool := c == ' ' || c == '\t'

/-- The literal `---`. -/
def dash3 : List Char := "---".data

/-- The closing delimiter alternative `\n---`. -/
def nlDash : List Char := "\n---".data

/-- The closing delimiter alternative `\n...`. -/
def nlDots : List Char := "\n...".data

/-- Continuation `([ \t]*)$` after a closing delimiter: greedy horizontal
space capture followed by end of line (next character is a newline) or end
of input.  Returns the captured trailing whitespace and the rest. -/
def eolCheck (cs : List Char) : Option (List Char × List Char) :=
  let p3 := cs.takeWhile hspB
  match cs.drop p3.length with
  | [] => some (p3, [])
  | '\n' :: r => some (p3, '\n' :: r)
  | _ => none

/-- Attempt of the closing alternation `(?:\n---|\n\.\.\.)` followed by the
trailing-whitespace capture at this exact position. -/
def closeAt (cs : List Char) : Option (List Char × List Char × List Char) :=
  if cs.take 4 = nlDash then
    match eolCheck (cs.drop 4) with
    | some (p3, r) => some (nlDash, p3, r)
    | none => none
  else if cs.take 4 = nlDots then
    match eolCheck (cs.drop 4) with
    | some (p3, r) => some (nlDots, p3, r)
    | none => none
  else none

/-- Lazy search `[\W\w]*?` for the earliest position where the closing
delimiter (with its trailing-whitespace continuation) matches.  Returns the
skipped lazy text, the delimiter, the trailing whitespace and the rest. -/
def closeSearch : List Char → Option (List Char × List Char × List Char × List Char)
  | [] => none
  | c :: tl =>
    match closeAt (c :: tl) with
    | some (d, p3, r) => some ([], d, p3, r)
    | none =>
      match closeSearch tl with
      | some (lz, d, p3, r) => some (c :: lz, d, p3, r)
      | none => none

/-- The yaml filter's match pattern
`/^([\t >]*)(---[ \t]*\n[\W\w]*?(?:\n---|\n\.\.\.))([ \t]*)$/gm`
(`yaml_metadata.ts` line 64), attempted at one line-start anchor.  Returns
the captures `(p1, p2, p3)` and the rest of the input after the match. -/
def matchYamlAt (cs : List Char) :
    Option (List Char × List Char × List Char × List Char) :=
  let p1 := cs.takeWhile fenceClassB
  let r1 := cs.drop p1.length
  if r1.take 3 = dash3 then
    let r2 := r1.drop 3
    let sp := r2.takeWhile hspB
    match r2.drop sp.length with
    | '\n' :: body =>
      match closeSearch body with
      | some (lz, d, p3, r) =>
        some (p1, dash3 ++ sp ++ '\n' :: (lz ++ d), p3, r)
      | none => none
    | _ => none
  else none

/-- First match of the yaml pattern over the whole input: the pattern is
anchored (`^` with the `m` flag), so it is attempted at each line start in
order.  Returns the text before the match, the captures and the rest. -/
def yamlFindAux : Nat → List Char →
    Option (List Char × List Char × List Char × List Char × List Char)
  | 0, _ => none
  | fuel + 1, cs =>
    match matchYamlAt cs with
    | some (p1, p2, p3, r) => some ([], p1, p2, p3, r)
    | none =>
      let ln := cs.takeWhile fun c => c != '\n'
      match cs.drop ln.length with
      | '\n' :: tl =>
        match yamlFindAux fuel tl with
        | some (pre, p1, p2, p3, r) => some (ln ++ '\n' :: pre, p1, p2, p3, r)
        | none => none
      | _ => none

/-- First match of the yaml pattern in the input, or `none`. -/
def yamlFind (cs : List Char) :
    Option (List Char × List Char × List Char × List Char × List Char) :=
  yamlFindAux (cs.length + 1) cs

/-- The yaml filter's `enclose` (`yaml_metadata.ts` lines 65-67): the
placeholder text plus a newline, so the placeholder stays its own block. -/
def encloseYaml (capsuleText : List Char) : List Char := capsuleText ++ ['\n']

/-- Modelled from the spec: the Block Capsule Scanner (§4.1,
`pandocMarkdownWithBlockCapsules`, not under the sampled sources): each match
of the filter's pattern is replaced by the leading context, the enclosed
placeholder and the trailing whitespace, a fresh id is allocated and a
capsule record is added to the registry. -/
def yamlScanAux : Nat → Nat → List Char → List Char × List CapsuleRecord
  | 0, _, cs => (cs, [])
  | fuel + 1, nid, cs =>
    match yamlFind cs with
    | some (pre, p1, p2, p3, r) =>
      let placeholder := capText kYamlMetadataCapsuleType nid
      let out := yamlScanAux fuel (nid + 1) r
      (pre ++ p1 ++ encloseYaml placeholder ++ p3 ++ out.1,
        ⟨nid, kYamlMetadataCapsuleType, p2, encloseYaml placeholder⟩ :: out.2)
    | none => (cs, [])

/-- Modelled from the spec: scan-encode a source text with the yaml filter,
returning the encoded text and the per-pass registry (§4.1). -/
def yamlCapsuleScan (cs : List Char) : List Char × List CapsuleRecord :=
  yamlScanAux (cs.length + 1) 0 cs

/-- Substring occurrence as a proposition. -/
def SubOcc (pat cs : List Char) : Prop := ∃ a b, cs = a ++ pat ++ b

/-- Substring occurrence as a boolean. -/
def subOccB (pat cs : List Char) : Bool :=
  (List.range (cs.length + 1)).any fun i => (cs.drop i).take pat.length == pat

/-- Operations of the host document writer (`ProsemirrorWriter`), as used by
`writeNode`: open a node of a given type with a navigation id attribute,
write text into the open node, close the node (spec §6 host interface). -/
inductive WriterOp where
  | openNode : List Char → List Char → WriterOp
  | writeText : List Char → WriterOp
  | closeNode : WriterOp
deriving DecidableEq

/-- A completed document node produced by the writer. -/
structure PmNode where
  typeName : List Char
  navigationId : List Char
  text : List Char
deriving DecidableEq

/-- Writer state transition for one operation: the pending entry holds the
currently open node's type, navigation id and accumulated text; closing it
emits a completed node. -/
def stepW (op : WriterOp) (p : Option (List Char × List Char × List Char)) :
    List PmNode × Option (List Char × List Char × List Char) :=
  match op, p with
  | .openNode t n, _ => ([], some (t, n, []))
  | .writeText s, some (t, n, acc) => ([], some (t, n, acc ++ s))
  | .writeText _, none => ([], none)
  | .closeNode, some (t, n, acc) => ([⟨t, n, acc⟩], none)
  | .closeNode, none => ([], none)

/-- Run a sequence of writer operations, returning the emitted nodes and the
final pending entry. -/
def runW : List WriterOp → Option (List Char × List Char × List Char) →
    List PmNode × Option (List Char × List Char × List Char)
  | [], p => ([], p)
  | op :: rest, p =>
    let s := stepW op p
    let r := runW rest s.2
    (s.1 ++ r.1, r.2)

/-- Name of the dedicated node type (`yaml_metadata.ts` line 37). -/
def yamlNodeTypeName : List Char := "yaml_metadata".data

/-- The yaml filter's `writeNode` (`yaml_metadata.ts` lines 100-104): open a
`yaml_metadata` node with a fresh navigation id (the `uuidv4()` value is the
`uuid` parameter), write the capsule's source as its text, close it. -/
def yamlWriteNode (uuid : List Char) (capsule : CapsuleRecord) : List WriterOp :=
  [.openNode yamlNodeTypeName uuid, .writeText capsule.source, .closeNode]

/-- Output operations of the pandoc serializer (`PandocOutput`), as used by
the yaml node writer: a token containing nested output, or raw markdown
text (spec §4.4 / §6). -/
inductive OutputOp where
  | tokenOp : PandocTokenType → List OutputOp → OutputOp
  | rawMarkdownOp : List Char → OutputOp

/-- A `yaml_metadata` document node at serialization time: its current text
content (possibly edited since creation) and its navigation id. -/
structure YamlMetadataNode where
  navigationId : List Char
  content : List Char

/-- The yaml node's pandoc writer (`yaml_metadata.ts` lines 107-111): emit a
paragraph token whose content is the node's current text written as raw
markdown. -/
def yamlMetadataWriter (node : YamlMetadataNode) : List OutputOp :=
  [.tokenOp .Para [.rawMarkdownOp node.content]]


/-- Registry for exercising nested decoding: record 0's source is itself the
placeholder of record 1, and record 1's source is plain text. -/
def regNested : List CapsuleRecord :=
  [⟨0, kYamlMetadataCapsuleType, capText kYamlMetadataCapsuleType 1,
     encloseYaml (capText kYamlMetadataCapsuleType 0)⟩,
   ⟨1, kYamlMetadataCapsuleType, "A".data,
     encloseYaml (capText kYamlMetadataCapsuleType 1)⟩]

/-- A registry holding one record of a foreign filter, with no entry for the
yaml ids appearing in the text it is used on. -/
def regStale : List CapsuleRecord := [⟨5, "zz".data, "S".data, "S\n".data⟩]

/-- A string run holding a foreign-typed placeholder followed by a yaml-typed
placeholder. -/
def mixedRun : List Char :=
  capText "bb".data 0 ++ capText kYamlMetadataCapsuleType 1

/-- A paragraph token whose content is exactly the one string run
`mixedRun`. -/
def mixedParaTok : PandocToken := .node .Para [.textTok .Str mixedRun]

/-- A yaml metadata node whose content was edited down to bare text without
the delimiters. -/
def editedNode : YamlMetadataNode := ⟨"nav-1".data, "title: x".data⟩

end YamlCapsule

namespace YamlCapsule

/-- A `takeWhile` over a list that satisfies the predicate, followed by an
element that fails it, returns exactly that list. -/
theorem takeWhile_app (p : Char → Bool) (l : List Char) (x : Char) (r : List Char)
    (hl : ∀ c ∈ l, p c = true) (hx : p x = false) :
    (l ++ x :: r).takeWhile p = l := by
  induction l with
  | nil => simp [List.takeWhile, hx]
  | cons c tl ih =>
    have hc : p c = true := hl c (by simp)
    simp only [List.cons_append, List.takeWhile_cons, hc]
    simp [ih fun d hd => hl d (by simp [hd])]

/-- Every list splits as its `takeWhile` part plus the drop at its length. -/
theorem eq_takeWhile_append_drop (p : Char → Bool) (l : List Char) :
    l = l.takeWhile p ++ l.drop (l.takeWhile p).length := by
  obtain ⟨t, ht⟩ := List.takeWhile_prefix (l := l) p
  have hd : l.drop (l.takeWhile p).length = t := by
    have hdl := List.drop_left (l.takeWhile p) t
    rw [ht] at hdl
    exact hdl
  rw [hd, ht]

/-- A list whose `take n` equals `pat` splits as `pat` plus its `drop n`. -/
theorem eq_of_take_eq {cs pat : List Char} {n : Nat} (h : cs.take n = pat) :
    cs = pat ++ cs.drop n := by
  conv_lhs => rw [← List.take_append_drop n cs]
  rw [h]

/-- Parsing the empty text finds no placeholder. -/
theorem capParse_nil : capParse [] = none := by decide

/-- Characterization of a successful placeholder parse: the matched text has
the canonical sentinel-delimited shape and is a prefix of the input. -/
theorem capParse_eq_some {cs ty : List Char} {id : Nat} {m rest : List Char}
    (h : capParse cs = some (ty, id, m, rest)) :
    ∃ ds : List Char,
      ds ≠ [] ∧ (∀ c ∈ ds, c.isDigit = true) ∧ (∀ c ∈ ty, (c != ':') = true) ∧
      id = digitsVal ds ∧
      m = capSentinel ++ ':' :: (ty ++ ':' :: (ds ++ ':' :: capSentinel)) ∧
      cs = m ++ rest := by
  simp only [capParse] at h
  split at h
  case isFalse => exact absurd h (by simp)
  case isTrue h1 =>
    split at h
    case h_2 => exact absurd h (by simp)
    case h_1 r2 heq2 =>
      split at h
      case h_2 => exact absurd h (by simp)
      case h_1 r4 heq4 =>
        split at h
        case isTrue => exact absurd h (by simp)
        case isFalse h5 =>
          split at h
          case h_2 => exact absurd h (by simp)
          case h_1 r6 heq6 =>
            split at h
            case isFalse => exact absurd h (by simp)
            case isTrue h7 =>
              injection h with h
              injection h with hty h
              injection h with hid h
              injection h with hm hrest
              refine ⟨r4.takeWhile (fun c => c.isDigit), ?_, ?_, ?_, ?_, ?_, ?_⟩
              · intro hnil
                rw [hnil] at h5
                exact h5 rfl
              · intro c hc
                exact List.mem_takeWhile_imp (p := fun d => Char.isDigit d) hc
              · intro c hc
                rw [← hty] at hc
                exact List.mem_takeWhile_imp (p := fun d => d != ':') hc
              · exact hid.symm
              · rw [← hm, hty]
              · have e1 : cs = capSentinel ++ ':' :: r2 := by
                  rw [eq_of_take_eq h1, heq2]
                have e2 : r2 = (r2.takeWhile fun c => c != ':') ++ ':' :: r4 := by
                  conv_lhs => rw [eq_takeWhile_append_drop (fun c => c != ':') r2]
                  rw [heq4]
                have e3 : r4 = (r4.takeWhile fun c => c.isDigit) ++ ':' :: r6 := by
                  conv_lhs => rw [eq_takeWhile_append_drop (fun c => c.isDigit) r4]
                  rw [heq6]
                have e4 : r6 = capSentinel ++ rest := by
                  rw [eq_of_take_eq h7, hrest]
                rw [e1, e2, e3, e4, ← hm, hty]
                simp

/-- Evaluation of the placeholder parse on a canonically shaped match
followed by arbitrary text: it recognizes exactly the match. -/
theorem capParse_shape {ty ds : List Char} (post : List Char)
    (hty : ∀ c ∈ ty, (c != ':') = true) (hds : ds ≠ [])
    (hdig : ∀ c ∈ ds, c.isDigit = true) :
    capParse ((capSentinel ++ ':' :: (ty ++ ':' :: (ds ++ ':' :: capSentinel))) ++ post) =
      some (ty, digitsVal ds,
        capSentinel ++ ':' :: (ty ++ ':' :: (ds ++ ':' :: capSentinel)), post) := by
  have harg :
      (capSentinel ++ ':' :: (ty ++ ':' :: (ds ++ ':' :: capSentinel))) ++ post =
      capSentinel ++ ':' :: (ty ++ ':' :: (ds ++ ':' :: (capSentinel ++ post))) := by
    simp
  rw [harg]
  have ht1 : (ty ++ ':' :: (ds ++ ':' :: (capSentinel ++ post))).takeWhile
      (fun c => c != ':') = ty :=
    takeWhile_app _ _ _ _ hty (by decide)
  have ht2 : (ds ++ ':' :: (capSentinel ++ post)).takeWhile
      (fun c => c.isDigit) = ds :=
    takeWhile_app _ _ _ _ hdig (by decide)
  have hne : ds.isEmpty = false := by
    cases ds with
    | nil => exact absurd rfl hds
    | cons d tl => rfl
  simp only [capParse, List.take_left, List.drop_left, if_pos rfl, ht1, ht2, hne,
    List.drop_left']
  simp [ht1, ht2, hne, List.take_left', List.drop_left']

/-- A successful parse reparses its own matched text, with any suffix, to the
same fields. -/
theorem capParse_self {cs ty : List Char} {id : Nat} {m rest : List Char}
    (h : capParse cs = some (ty, id, m, rest)) (post : List Char) :
    capParse (m ++ post) = some (ty, id, m, post) := by
  obtain ⟨ds, hds, hdig, hty, hid, hm, hcs⟩ := capParse_eq_some h
  rw [hm, hid]
  exact capParse_shape post hty hds hdig

/-- A successful parse splits the input as match plus rest, with a non-empty
match. -/
theorem capParse_split {cs ty : List Char} {id : Nat} {m rest : List Char}
    (h : capParse cs = some (ty, id, m, rest)) :
    cs = m ++ rest ∧ m ≠ [] := by
  obtain ⟨ds, hds, hdig, hty, hid, hm, hcs⟩ := capParse_eq_some h
  refine ⟨hcs, ?_⟩
  rw [hm]
  simp [capSentinel]

/-- The rest after a successful parse is strictly shorter than the input. -/
theorem capParse_rest_lt {cs ty : List Char} {id : Nat} {m rest : List Char}
    (h : capParse cs = some (ty, id, m, rest)) : rest.length < cs.length := by
  obtain ⟨hcs, hm⟩ := capParse_split h
  have hpos : 0 < m.length := List.length_pos.mpr hm
  rw [hcs, List.length_append]
  omega

/-- Decoding the empty text gives the empty text at any fuel. -/
theorem decodeAux_nil (reg : List CapsuleRecord) (fuel : Nat) :
    decodeAux reg fuel [] = [] := by
  cases fuel with
  | zero => rfl
  | succ f => simp [decodeAux, capParse_nil]

/-- The decode is independent of the fuel once the fuel covers the input
length. -/
theorem decodeAux_fuel (reg : List CapsuleRecord) :
    ∀ f g cs, cs.length ≤ f → cs.length ≤ g →
      decodeAux reg f cs = decodeAux reg g cs := by
  intro f
  induction f with
  | zero =>
    intro g cs hf hg
    have : cs = [] := List.length_eq_zero.mp (Nat.le_zero.mp hf)
    rw [this, decodeAux_nil, decodeAux_nil]
  | succ f ih =>
    intro g cs hf hg
    cases g with
    | zero =>
      have : cs = [] := List.length_eq_zero.mp (Nat.le_zero.mp hg)
      rw [this, decodeAux_nil, decodeAux_nil]
    | succ g =>
      cases hp : capParse cs with
      | some v =>
        obtain ⟨ty, id, m, rest⟩ := v
        have hlt := capParse_rest_lt hp
        simp only [decodeAux, hp]
        rw [ih g rest (by omega) (by omega)]
      | none =>
        cases cs with
        | nil => rw [decodeAux_nil, decodeAux_nil]
        | cons c tl =>
          simp only [decodeAux, hp]
          simp only [List.length_cons] at hf hg
          rw [ih g tl (by omega) (by omega)]

/-- `handleText` agrees with the fueled decode for any sufficient fuel. -/
theorem handleText_eq_decodeAux (reg : List CapsuleRecord) (cs : List Char)
    (f : Nat) (hf : cs.length ≤ f) : handleText reg cs = decodeAux reg f cs :=
  decodeAux_fuel reg cs.length f cs (Nat.le_refl _) hf

/-- Fixpoint lemma: a text in which no placeholder occurrence is live (none
would be substituted) is returned unchanged by `handleText`. -/
theorem handleText_fixed (reg : List CapsuleRecord) (cs : List Char)
    (h : ∀ i ty id m rest, capParse (cs.drop i) = some (ty, id, m, rest) →
      liveCap reg ty id = false) :
    handleText reg cs = cs := by
  rw [handleText]
  generalize hf : cs.length = f
  have hlen : cs.length ≤ f := by omega
  clear hf
  induction f generalizing cs with
  | zero =>
    have : cs = [] := List.length_eq_zero.mp (Nat.le_zero.mp hlen)
    rw [this, decodeAux_nil]
  | succ f ih =>
    cases hp : capParse cs with
    | some v =>
      obtain ⟨ty, id, m, rest⟩ := v
      have h0 : capParse (cs.drop 0) = some (ty, id, m, rest) := by
        simpa using hp
      have hlive := h 0 ty id m rest h0
      have hrepl : capReplace reg ty id m = m := by
        simp only [capReplace]
        by_cases hty : ty = kYamlMetadataCapsuleType
        · simp only [liveCap, hty, beq_self_eq_true, Bool.true_and] at hlive
          rw [if_pos hty]
          cases hl : capLookup reg ty id with
          | none => rfl
          | some r => rw [← hty, hl] at hlive; simp at hlive
        · rw [if_neg hty]
      obtain ⟨hcs, hm⟩ := capParse_split hp
      have hrest : ∀ i ty' id' m' rest',
          capParse (rest.drop i) = some (ty', id', m', rest') →
          liveCap reg ty' id' = false := by
        intro i ty' id' m' rest' hp'
        apply h (m.length + i) ty' id' m' rest'
        rw [hcs, ← List.drop_drop, List.drop_left]
        exact hp'
      have hlt := capParse_rest_lt hp
      have hrlen : rest.length ≤ f := by omega
      simp only [decodeAux, hp]
      rw [hrepl, ih rest hrest hrlen]
      exact hcs.symm
    | none =>
      cases cs with
      | nil => rw [decodeAux_nil]
      | cons c tl =>
        have htl : ∀ i ty' id' m' rest',
            capParse (tl.drop i) = some (ty', id', m', rest') →
            liveCap reg ty' id' = false := by
          intro i ty' id' m' rest' hp'
          apply h (i + 1) ty' id' m' rest'
          rw [List.drop_succ_cons]
          exact hp'
        simp only [List.length_cons] at hlen
        simp only [decodeAux, hp]
        rw [ih tl htl (by omega)]

/-- A placeholder occurrence can only start inside the text. -/
theorem capParse_drop_lt {cs : List Char} {i : Nat} {ty : List Char} {id : Nat}
    {m rest : List Char} (h : capParse (cs.drop i) = some (ty, id, m, rest)) :
    i < cs.length + 1 := by
  by_contra hge
  have hnil : cs.drop i = [] := List.drop_eq_nil_of_le (by omega)
  rw [hnil, capParse_nil] at h
  exact absurd h (by simp)

/-- If no occurrence in the text is live, every parsed occurrence has a
false liveness flag. -/
theorem hasLiveB_false {reg : List CapsuleRecord} {cs : List Char}
    (h : hasLiveB reg cs = false) :
    ∀ i ty id m rest, capParse (cs.drop i) = some (ty, id, m, rest) →
      liveCap reg ty id = false := by
  intro i ty id m rest hp
  cases hl : liveCap reg ty id with
  | false => rfl
  | true =>
    have hib : i < cs.length + 1 := capParse_drop_lt hp
    have htrue : hasLiveB reg cs = true := by
      rw [hasLiveB, List.any_eq_true]
      exact ⟨i, List.mem_range.mpr hib, by simp [hp, hl]⟩
    rw [htrue] at h
    exact absurd h (by simp)

/-- If every occurrence misses the registry, every parsed occurrence has a
`none` lookup. -/
theorem occLookupMissB_spec {reg : List CapsuleRecord} {cs : List Char}
    (h : occLookupMissB reg cs = true) :
    ∀ i ty id m rest, capParse (cs.drop i) = some (ty, id, m, rest) →
      capLookup reg ty id = none := by
  intro i ty id m rest hp
  have hib : i < cs.length + 1 := capParse_drop_lt hp
  rw [occLookupMissB, List.all_eq_true] at h
  have hi := h i (List.mem_range.mpr hib)
  simpa [hp] using hi

/-- If the text contains no occurrence, every parse at every offset fails. -/
theorem noCapOccB_spec {cs : List Char} (h : noCapOccB cs = true) :
    ∀ i, capParse (cs.drop i) = none := by
  intro i
  cases hp : capParse (cs.drop i) with
  | none => rfl
  | some v =>
    obtain ⟨ty, id, m, rest⟩ := v
    have hib : i < cs.length + 1 := capParse_drop_lt hp
    rw [noCapOccB, List.all_eq_true] at h
    have hi := h i (List.mem_range.mpr hib)
    rw [hp] at hi
    exact absurd hi (by simp)

/-- The decomposition covers exactly the input text. -/
theorem segsIn_segsAux : ∀ f cs, cs.length ≤ f → segsIn (segsAux f cs) = cs := by
  intro f
  induction f with
  | zero =>
    intro cs hf
    have : cs = [] := List.length_eq_zero.mp (Nat.le_zero.mp hf)
    rw [this]
    rfl
  | succ f ih =>
    intro cs hf
    cases hp : capParse cs with
    | some v =>
      obtain ⟨ty, id, m, rest⟩ := v
      obtain ⟨hcs, hm⟩ := capParse_split hp
      have hlt := capParse_rest_lt hp
      simp only [segsAux, hp, segsIn, List.map_cons, List.flatten_cons, segIn]
      show m ++ segsIn (segsAux f rest) = cs
      rw [ih rest (by omega)]
      exact hcs.symm
    | none =>
      cases cs with
      | nil => rfl
      | cons c tl =>
        simp only [segsAux, hp, segsIn, List.map_cons, List.flatten_cons, segIn]
        show c :: segsIn (segsAux f tl) = c :: tl
        simp only [List.length_cons] at hf
        rw [ih tl (by omega)]

/-- The decomposition's output is exactly the decode's output. -/
theorem segsOut_segsAux (reg : List CapsuleRecord) :
    ∀ f cs, cs.length ≤ f → segsOut reg (segsAux f cs) = decodeAux reg f cs := by
  intro f
  induction f with
  | zero =>
    intro cs hf
    have : cs = [] := List.length_eq_zero.mp (Nat.le_zero.mp hf)
    rw [this]
    rfl
  | succ f ih =>
    intro cs hf
    cases hp : capParse cs with
    | some v =>
      obtain ⟨ty, id, m, rest⟩ := v
      have hlt := capParse_rest_lt hp
      simp only [segsAux, hp, decodeAux, segsOut, List.map_cons, List.flatten_cons, segOut]
      show capReplace reg ty id m ++ segsOut reg (segsAux f rest) =
        capReplace reg ty id m ++ decodeAux reg f rest
      rw [ih rest (by omega)]
    | none =>
      cases cs with
      | nil => rfl
      | cons c tl =>
        simp only [segsAux, hp, decodeAux, segsOut, List.map_cons, List.flatten_cons, segOut]
        show c :: segsOut reg (segsAux f tl) = c :: decodeAux reg f tl
        simp only [List.length_cons] at hf
        rw [ih tl (by omega)]

/-- Every capsule segment of the decomposition is a complete placeholder
match. -/
theorem segsAux_caps :
    ∀ f cs, ∀ s ∈ segsAux f cs, ∀ ty id m, s = ScanSeg.cap ty id m →
      capParse m = some (ty, id, m, []) := by
  intro f
  induction f with
  | zero =>
    intro cs s hs
    simp [segsAux] at hs
  | succ f ih =>
    intro cs s hs ty id m hseq
    cases hp : capParse cs with
    | some v =>
      obtain ⟨ty0, id0, m0, rest0⟩ := v
      simp only [segsAux, hp] at hs
      rcases List.mem_cons.mp hs with hhead | htail
      · rw [hseq] at hhead
        injection hhead.symm with e1 e2 e3
        rw [← e1, ← e2, ← e3]
        have := capParse_self hp []
        rwa [List.append_nil] at this
      · exact ih rest0 s htail ty id m hseq
    | none =>
      cases cs with
      | nil => simp [segsAux, hp] at hs
      | cons c tl =>
        simp only [segsAux, hp] at hs
        rcases List.mem_cons.mp hs with hhead | htail
        · rw [hseq] at hhead
          exact absurd hhead.symm (by simp)
        · exact ih tl s htail ty id m hseq

/-- A successful end-of-line continuation splits its input as the trailing
whitespace plus the rest. -/
theorem eolCheck_some : ∀ cs p3 r, eolCheck cs = some (p3, r) → cs = p3 ++ r := by
  intro cs p3 r h
  simp only [eolCheck] at h
  split at h
  case h_1 heq =>
    injection h with h
    injection h with h1 h2
    rw [← h1, ← h2]
    conv_lhs => rw [eq_takeWhile_append_drop hspB cs]
    rw [heq]
  case h_2 r' heq =>
    injection h with h
    injection h with h1 h2
    rw [← h1, ← h2]
    conv_lhs => rw [eq_takeWhile_append_drop hspB cs]
    rw [heq]
  case h_3 => exact absurd h (by simp)

/-- A successful closing-delimiter attempt splits its input as delimiter,
trailing whitespace and rest, and the delimiter is one of the two
alternatives. -/
theorem closeAt_some : ∀ cs d p3 r, closeAt cs = some (d, p3, r) →
    cs = d ++ p3 ++ r ∧ (d = nlDash ∨ d = nlDots) := by
  intro cs d p3 r h
  simp only [closeAt] at h
  split at h
  case isTrue h1 =>
    split at h
    case h_1 p3' r' heq =>
      injection h with h
      injection h with hd h
      injection h with hp3 hr
      rw [← hd, ← hp3, ← hr]
      refine ⟨?_, Or.inl rfl⟩
      rw [eq_of_take_eq h1, eolCheck_some _ _ _ heq]
      simp
    case h_2 => exact absurd h (by simp)
  case isFalse h1 =>
    split at h
    case isTrue h2 =>
      split at h
      case h_1 p3' r' heq =>
        injection h with h
        injection h with hd h
        injection h with hp3 hr
        rw [← hd, ← hp3, ← hr]
        refine ⟨?_, Or.inr rfl⟩
        rw [eq_of_take_eq h2, eolCheck_some _ _ _ heq]
        simp
      case h_2 => exact absurd h (by simp)
    case isFalse => exact absurd h (by simp)

/-- A successful lazy close search splits its input as lazy text, delimiter,
trailing whitespace and rest. -/
theorem closeSearch_some : ∀ body lz d p3 r,
    closeSearch body = some (lz, d, p3, r) →
    body = lz ++ d ++ p3 ++ r ∧ (d = nlDash ∨ d = nlDots) := by
  intro body
  induction body with
  | nil => intro lz d p3 r h; exact absurd h (by simp [closeSearch])
  | cons c tl ih =>
    intro lz d p3 r h
    simp only [closeSearch] at h
    split at h
    case h_1 d0 p30 r0 heq =>
      injection h with h
      injection h with hlz h
      injection h with hd h
      injection h with hp3 hr
      obtain ⟨hsplit, halt⟩ := closeAt_some _ _ _ _ heq
      rw [← hlz, ← hd, ← hp3, ← hr]
      exact ⟨by simpa using hsplit, halt⟩
    case h_2 =>
      split at h
      case h_1 lz0 d0 p30 r0 heq =>
        injection h with h
        injection h with hlz h
        injection h with hd h
        injection h with hp3 hr
        obtain ⟨hsplit, halt⟩ := ih lz0 d0 p30 r0 heq
        rw [← hlz, ← hd, ← hp3, ← hr]
        constructor
        · rw [hsplit]
          simp
        · exact halt
      case h_2 => exact absurd h (by simp)

/-- A successful anchored match decomposes the input and contains a closing
delimiter inside the matched block. -/
theorem matchYamlAt_some : ∀ cs p1 p2 p3 r, matchYamlAt cs = some (p1, p2, p3, r) →
    ∃ sp lz d, cs = p1 ++ p2 ++ p3 ++ r ∧
      p2 = dash3 ++ sp ++ '\n' :: (lz ++ d) ∧ (d = nlDash ∨ d = nlDots) := by
  intro cs p1 p2 p3 r h
  simp only [matchYamlAt] at h
  split at h
  case isTrue h1 =>
    split at h
    case h_1 body heqB =>
      split at h
      case h_1 lz d0 p3' r' heqC =>
        injection h with h
        injection h with hp1 h
        injection h with hp2 h
        injection h with hp3 hr
        obtain ⟨hsplit, halt⟩ := closeSearch_some _ _ _ _ _ heqC
        refine ⟨((cs.drop (cs.takeWhile fenceClassB).length).drop 3).takeWhile hspB,
          lz, d0, ?_, ?_, halt⟩
        · rw [← hp1, ← hp2, ← hp3, ← hr]
          conv_lhs =>
            rw [eq_takeWhile_append_drop fenceClassB cs, eq_of_take_eq h1,
              eq_takeWhile_append_drop hspB
                ((cs.drop (cs.takeWhile fenceClassB).length).drop 3),
              heqB, hsplit]
          simp
        · rw [← hp2]
      case h_2 => exact absurd h (by simp)
    case h_2 => exact absurd h (by simp)
  case isFalse => exact absurd h (by simp)

/-- A successful anchored-scan search implies a closing delimiter occurs as a
substring of the input. -/
theorem yamlFindAux_some_sub : ∀ fuel cs pre p1 p2 p3 r,
    yamlFindAux fuel cs = some (pre, p1, p2, p3, r) →
    SubOcc nlDash cs ∨ SubOcc nlDots cs := by
  intro fuel
  induction fuel with
  | zero => intro cs pre p1 p2 p3 r h; exact absurd h (by simp [yamlFindAux])
  | succ fuel ih =>
    intro cs pre p1 p2 p3 r h
    simp only [yamlFindAux] at h
    split at h
    case h_1 p1' p2' p3' r' heqM =>
      injection h with h
      injection h with hpre h
      injection h with hp1 h
      injection h with hp2 h
      injection h with hp3 hr
      obtain ⟨sp, lz, d, hsplit, hp2eq, halt⟩ := matchYamlAt_some _ _ _ _ _ heqM
      have hsub : SubOcc d cs := by
        refine ⟨p1' ++ dash3 ++ sp ++ '\n' :: lz, p3' ++ r', ?_⟩
        rw [hsplit, hp2eq]
        simp
      rcases halt with hd | hd
      · exact Or.inl (hd ▸ hsub)
      · exact Or.inr (hd ▸ hsub)
    case h_2 =>
      split at h
      case h_1 tl heqT =>
        split at h
        case h_1 pre0 p10 p20 p30 r0 heqF =>
          have hsub := ih tl pre0 p10 p20 p30 r0 heqF
          rcases hsub with ⟨a, b, hab⟩ | ⟨a, b, hab⟩
          · refine Or.inl ⟨(cs.takeWhile fun c => c != '\n') ++ '\n' :: a, b, ?_⟩
            conv_lhs =>
              rw [eq_takeWhile_append_drop (fun c => c != '\n') cs, heqT, hab]
            simp
          · refine Or.inr ⟨(cs.takeWhile fun c => c != '\n') ++ '\n' :: a, b, ?_⟩
            conv_lhs =>
              rw [eq_takeWhile_append_drop (fun c => c != '\n') cs, heqT, hab]
            simp
        case h_2 => exact absurd h (by simp)
      case h_2 => exact absurd h (by simp)

/-- A substring occurrence makes the boolean substring test true. -/
theorem subOccB_of_subOcc {pat cs : List Char} (h : SubOcc pat cs) :
    subOccB pat cs = true := by
  obtain ⟨a, b, hab⟩ := h
  rw [subOccB, List.any_eq_true]
  refine ⟨a.length, List.mem_range.mpr ?_, ?_⟩
  · rw [hab]
    simp [List.length_append]
    omega
  · rw [hab, List.append_assoc, List.drop_left, List.take_left]
    simp

/-- First-match search fails when no closing delimiter occurs anywhere in the
input. -/
theorem yamlFind_none_of_no_close {cs : List Char}
    (h1 : subOccB nlDash cs = false) (h2 : subOccB nlDots cs = false) :
    yamlFind cs = none := by
  cases h : yamlFind cs with
  | none => rfl
  | some v =>
    obtain ⟨pre, p1, p2, p3, r⟩ := v
    rcases yamlFindAux_some_sub _ _ _ _ _ _ _ h with hsub | hsub
    · rw [subOccB_of_subOcc hsub] at h1
      exact absurd h1 (by simp)
    · rw [subOccB_of_subOcc hsub] at h2
      exact absurd h2 (by simp)

/-- The lazy close search succeeds on any text ending in the dash closing
delimiter. -/
theorem closeSearch_app_nlDash : ∀ body, (closeSearch (body ++ nlDash)).isSome = true := by
  intro body
  induction body with
  | nil =>
    rw [List.nil_append]
    decide
  | cons c tl ih =>
    rw [List.cons_append]
    cases hca : closeAt (c :: (tl ++ nlDash)) with
    | some v =>
      obtain ⟨d, p3, r⟩ := v
      simp [closeSearch, hca]
    | none =>
      cases hcs2 : closeSearch (tl ++ nlDash) with
      | none => rw [hcs2] at ih; exact absurd ih (by simp)
      | some v =>
        obtain ⟨lz, d, p3, r⟩ := v
        simp [closeSearch, hca, hcs2]

/-- The anchored match succeeds on any content of the delimiter-wrapped form
`---` newline body `\n---`. -/
theorem matchYamlAt_wrap (body : List Char) :
    (matchYamlAt (dash3 ++ '\n' :: (body ++ nlDash))).isSome = true := by
  have h := closeSearch_app_nlDash body
  cases hcs2 : closeSearch (body ++ nlDash) with
  | none => rw [hcs2] at h; exact absurd h (by simp)
  | some v =>
    obtain ⟨lz, d, p3, r⟩ := v
    have h1 : List.takeWhile fenceClassB (dash3 ++ '\n' :: (body ++ nlDash)) = [] := rfl
    simp only [matchYamlAt, h1, List.length_nil, List.drop_zero]
    rw [List.take_left' (show dash3.length = 3 from rfl), if_pos rfl,
      List.drop_left' (show dash3.length = 3 from rfl)]
    have h2 : List.takeWhile hspB ('\n' :: (body ++ nlDash)) = [] := rfl
    simp only [h2, List.length_nil, List.drop_zero, hcs2]
    rfl

/-- The first-match search succeeds on any delimiter-wrapped content. -/
theorem yamlFind_wrap (body : List Char) :
    (yamlFind (dash3 ++ '\n' :: (body ++ nlDash))).isSome = true := by
  have h := matchYamlAt_wrap body
  cases hm : matchYamlAt (dash3 ++ '\n' :: (body ++ nlDash)) with
  | none => rw [hm] at h; exact absurd h (by simp)
  | some v =>
    obtain ⟨p1, p2, p3, r⟩ := v
    rw [yamlFind]
    simp [yamlFindAux, hm]

/-- Running an appended list of writer operations composes the emitted nodes
and threads the pending entry. -/
theorem runW_append : ∀ xs ys p, runW (xs ++ ys) p =
    ((runW xs p).1 ++ (runW ys (runW xs p).2).1, (runW ys (runW xs p).2).2) := by
  intro xs
  induction xs with
  | nil => intro ys p; simp [runW]
  | cons op tl ih =>
    intro ys p
    simp only [List.cons_append, runW, List.append_eq]
    rw [ih]
    simp [List.append_assoc]

/-- C1: the claim asserts byte-for-byte round-trip exactness of
scan-encode followed by residual decode.  On the source text
`---\ntitle: x\n---` the pipeline instead returns the original text with one
extra newline appended: `enclose` adds a newline after the placeholder
(yaml_metadata.ts lines 65-67) and `handleText` substitutes only the
placeholder span, leaving that newline behind (the acknowledged
`TODO: strip off the newline` at yaml_metadata.ts line 71). -/
theorem claim_C1_roundtrip_newline_bug :
    handleText (yamlCapsuleScan "---\ntitle: x\n---".data).2
        (yamlCapsuleScan "---\ntitle: x\n---".data).1 =
      "---\ntitle: x\n---".data ++ ['\n'] ∧
    handleText (yamlCapsuleScan "---\ntitle: x\n---".data).2
        (yamlCapsuleScan "---\ntitle: x\n---".data).1 ≠
      "---\ntitle: x\n---".data := by
  constructor
  · decide
  · decide

/-- C2 counterexample: `handleText` is not idempotent on every input.  With
the registry `regNested`, decoding the placeholder of record 0 yields the
placeholder of record 1, and a second decode replaces that as well. -/
theorem claim_C2_counterexample :
    handleText regNested (handleText regNested (capText kYamlMetadataCapsuleType 0)) ≠
      handleText regNested (capText kYamlMetadataCapsuleType 0) := by
  decide

/-- C2 (amended): `handleText` is idempotent on every input whose decoded
output contains no live placeholder occurrence (none whose embedded type is
the yaml type with an id present in the registry); in particular decoded
text without residual live placeholders is a fixed point. -/
theorem claim_C2_idempotent_amended (reg : List CapsuleRecord) (x : List Char)
    (h : hasLiveB reg (handleText reg x) = false) :
    handleText reg (handleText reg x) = handleText reg x :=
  handleText_fixed reg (handleText reg x) (hasLiveB_false h)

/-- Witness for C2 (amended) at a concrete input. -/
theorem claim_C2_idempotent_amended_witness :
    hasLiveB [] (handleText [] "abc".data) = false ∧
    handleText [] (handleText [] "abc".data) = handleText [] "abc".data :=
  ⟨by decide, claim_C2_idempotent_amended [] "abc".data (by decide)⟩

/-- C3: decoding is type-scoped.  `handleText` decomposes its input into
literal characters and complete placeholder matches; every match whose
embedded type differs from the yaml type is written back unchanged, and a
match is substituted only when its embedded type is the yaml type. -/
theorem claim_C3_type_scoping (reg : List CapsuleRecord) (cs : List Char) :
    ∃ segs : List ScanSeg,
      segsIn segs = cs ∧
      handleText reg cs = segsOut reg segs ∧
      (∀ ty id m, ScanSeg.cap ty id m ∈ segs → capParse m = some (ty, id, m, [])) ∧
      (∀ ty id m, ScanSeg.cap ty id m ∈ segs → ty ≠ kYamlMetadataCapsuleType →
        segOut reg (ScanSeg.cap ty id m) = m) ∧
      (∀ ty id m, ScanSeg.cap ty id m ∈ segs →
        segOut reg (ScanSeg.cap ty id m) ≠ m → ty = kYamlMetadataCapsuleType) := by
  refine ⟨segsAux cs.length cs, segsIn_segsAux cs.length cs (Nat.le_refl _),
    ?_, ?_, ?_, ?_⟩
  · rw [handleText, segsOut_segsAux reg cs.length cs (Nat.le_refl _)]
  · intro ty id m hm
    exact segsAux_caps cs.length cs _ hm ty id m rfl
  · intro ty id m hm hty
    simp [segOut, capReplace, hty]
  · intro ty id m hm hne
    by_contra hty
    exact hne (by simp [segOut, capReplace, hty])

/-- C4: a raw-block candidate with a missing closing delimiter never
matches.  Any input that opens with a `---` line but contains neither a
`\n---` nor a `\n...` substring produces no match of the yaml pattern, and
the scanner returns the text unchanged with an empty registry. -/
theorem claim_C4_unterminated_no_match (cs : List Char)
    (hopen : cs.take 3 = dash3)
    (h1 : subOccB nlDash cs = false) (h2 : subOccB nlDots cs = false) :
    yamlFind cs = none ∧ yamlCapsuleScan cs = (cs, []) := by
  have hfind := yamlFind_none_of_no_close h1 h2
  refine ⟨hfind, ?_⟩
  rw [yamlCapsuleScan]
  simp [yamlScanAux, hfind]

/-- Witness for C4 on scenario 2's input `---\ntitle: x\n`. -/
theorem claim_C4_unterminated_no_match_witness :
    yamlFind "---\ntitle: x\n".data = none ∧
    yamlCapsuleScan "---\ntitle: x\n".data = ("---\ntitle: x\n".data, []) :=
  claim_C4_unterminated_no_match "---\ntitle: x\n".data
    (by decide) (by decide) (by decide)

/-- C6: `writeNode` appends exactly one `yaml_metadata` node to the writer
output, whose text content equals the capsule record's source, and leaves no
node open. -/
theorem claim_C6_write_node (ops : List WriterOp) (uuid : List Char)
    (capsule : CapsuleRecord) (h : (runW ops none).2 = none) :
    (runW (ops ++ yamlWriteNode uuid capsule) none).1 =
      (runW ops none).1 ++ [⟨yamlNodeTypeName, uuid, capsule.source⟩] ∧
    (runW (ops ++ yamlWriteNode uuid capsule) none).2 = none := by
  constructor
  · rw [runW_append, h]
    simp [yamlWriteNode, runW, stepW]
  · rw [runW_append, h]
    simp [yamlWriteNode, runW, stepW]

/-- Witness for C6 with an empty prior operation list. -/
theorem claim_C6_write_node_witness :
    (runW (([] : List WriterOp) ++ yamlWriteNode "u0".data
        ⟨0, kYamlMetadataCapsuleType, "s0".data, "s0\n".data⟩) none).1 =
      (runW ([] : List WriterOp) none).1 ++
        [⟨yamlNodeTypeName, "u0".data, "s0".data⟩] ∧
    (runW (([] : List WriterOp) ++ yamlWriteNode "u0".data
        ⟨0, kYamlMetadataCapsuleType, "s0".data, "s0\n".data⟩) none).2 = none :=
  claim_C6_write_node [] "u0".data
    ⟨0, kYamlMetadataCapsuleType, "s0".data, "s0\n".data⟩ rfl

/-- C7 counterexample: the serializer does not re-wrap the node's content
with the delimiter convention.  A node edited down to `title: x` is emitted
as exactly that raw text inside a paragraph token, and the emitted text no
longer matches the yaml pattern, so a subsequent import does not
re-recognize it. -/
theorem claim_C7_counterexample :
    yamlMetadataWriter editedNode =
      [OutputOp.tokenOp PandocTokenType.Para
        [OutputOp.rawMarkdownOp "title: x".data]] ∧
    yamlFind editedNode.content = none :=
  ⟨rfl, by decide⟩

/-- C7 (amended): on serialization the node's current text content is
emitted verbatim as raw markdown inside a paragraph token, with no
delimiters added; a subsequent import re-recognizes the construct exactly
when the content itself still carries the delimiters, as the capsule's
stored source does. -/
theorem claim_C7_raw_write_amended (node : YamlMetadataNode) :
    yamlMetadataWriter node =
      [OutputOp.tokenOp PandocTokenType.Para
        [OutputOp.rawMarkdownOp node.content]] ∧
    (∀ body : List Char, node.content = dash3 ++ '\n' :: (body ++ nlDash) →
      (yamlFind node.content).isSome = true) := by
  refine ⟨rfl, ?_⟩
  intro body hbody
  rw [hbody]
  exact yamlFind_wrap body

/-- Witness for C7 (amended) on a delimiter-wrapped content. -/
theorem claim_C7_raw_write_amended_witness :
    yamlMetadataWriter ⟨"nav-2".data, dash3 ++ '\n' :: ("t: 1".data ++ nlDash)⟩ =
      [OutputOp.tokenOp PandocTokenType.Para
        [OutputOp.rawMarkdownOp (dash3 ++ '\n' :: ("t: 1".data ++ nlDash))]] ∧
    (yamlFind (dash3 ++ '\n' :: ("t: 1".data ++ nlDash))).isSome = true :=
  ⟨(claim_C7_raw_write_amended ⟨"nav-2".data,
      dash3 ++ '\n' :: ("t: 1".data ++ nlDash)⟩).1,
   (claim_C7_raw_write_amended ⟨"nav-2".data,
      dash3 ++ '\n' :: ("t: 1".data ++ nlDash)⟩).2 "t: 1".data rfl⟩

/-- C8: when the residual decoder meets placeholders whose ids miss the
registry, `handleText` returns the text unchanged: a silent no-op with no
error. -/
theorem claim_C8_lookup_miss_noop (reg : List CapsuleRecord) (cs : List Char)
    (h : occLookupMissB reg cs = true) : handleText reg cs = cs := by
  apply handleText_fixed
  intro i ty id m rest hp
  have hnone := occLookupMissB_spec h i ty id m rest hp
  simp [liveCap, hnone]

/-- Witness for C8: a yaml-typed placeholder whose id is absent from the
registry is left untouched. -/
theorem claim_C8_lookup_miss_noop_witness :
    occLookupMissB regStale (capText kYamlMetadataCapsuleType 9) = true ∧
    handleText regStale (capText kYamlMetadataCapsuleType 9) =
      capText kYamlMetadataCapsuleType 9 :=
  ⟨by decide, claim_C8_lookup_miss_noop regStale
    (capText kYamlMetadataCapsuleType 9) (by decide)⟩

/-- C9: `handleText` and `handleToken` are deterministic across independent
calls.  The shared scan cursor is reset to zero before every scan, so two
invocations on equal inputs return equal outputs regardless of the prior
call histories and initial cursor states. -/
theorem claim_C9_deterministic (reg : List CapsuleRecord)
    (h₁ h₂ : List CodecCall) (st₁ st₂ : RegexGlobalState)
    (x : List Char) (tok : PandocToken) :
    (handleTextS reg (runCalls reg h₁ st₁) x).1 =
      (handleTextS reg (runCalls reg h₂ st₂) x).1 ∧
    (handleTokenS (runCalls reg h₁ st₁) tok).1 =
      (handleTokenS (runCalls reg h₂ st₂) tok).1 :=
  ⟨rfl, rfl⟩

/-- C10: `handleText` modifies only placeholder spans.  A text with no
placeholder occurrence is returned byte-identical, and every input
decomposes into literal characters, each preserved verbatim, and complete
placeholder matches, with the output exactly the per-segment rewrite. -/
theorem claim_C10_frame (reg : List CapsuleRecord) (cs : List Char) :
    (noCapOccB cs = true → handleText reg cs = cs) ∧
    (∃ segs : List ScanSeg,
      segsIn segs = cs ∧ handleText reg cs = segsOut reg segs ∧
      (∀ c, ScanSeg.lit c ∈ segs → segOut reg (ScanSeg.lit c) = [c]) ∧
      (∀ ty id m, ScanSeg.cap ty id m ∈ segs →
        capParse m = some (ty, id, m, []))) := by
  constructor
  · intro h
    apply handleText_fixed
    intro i ty id m rest hp
    rw [noCapOccB_spec h i] at hp
    exact absurd hp (by simp)
  · refine ⟨segsAux cs.length cs, segsIn_segsAux cs.length cs (Nat.le_refl _),
      ?_, ?_, ?_⟩
    · rw [handleText, segsOut_segsAux reg cs.length cs (Nat.le_refl _)]
    · intro c hc
      rfl
    · intro ty id m hm
      exact segsAux_caps cs.length cs _ hm ty id m rfl

/-- Witness for C10 on a placeholder-free text. -/
theorem claim_C10_frame_witness :
    handleText [] "hi".data = "hi".data :=
  (claim_C10_frame [] "hi".data).1 (by decide)

/-- C5 counterexample: `handleToken` does not claim every single-run
paragraph containing a yaml-typed placeholder.  When the run's first
placeholder belongs to a foreign type, `handleToken` returns null even
though a yaml-typed placeholder occurs later in the run. -/
theorem claim_C5_counterexample :
    handleToken mixedParaTok = none ∧ hasYamlOccB mixedRun = true := by
  constructor
  · decide
  · decide

/-- C5 (amended): `handleToken` returns a non-null match exactly when the
token is a paragraph whose content is one string run and the first
placeholder occurrence in that run has the yaml embedded type; every other
token yields null, so default translation proceeds. -/
theorem claim_C5_probe_amended (tok : PandocToken) :
    (handleToken tok).isSome = true ↔
      ∃ s ty id m, tok = PandocToken.node PandocTokenType.Para
          [PandocToken.textTok PandocTokenType.Str s] ∧
        capFirstMatch s = some (ty, id, m) ∧ ty = kYamlMetadataCapsuleType := by
  cases tok with
  | textTok t s => simp [handleToken, handleTokenFrom]
  | node t children =>
    cases t with
    | Plain => simp [handleToken, handleTokenFrom]
    | Str => simp [handleToken, handleTokenFrom]
    | Header => simp [handleToken, handleTokenFrom]
    | CodeBlock => simp [handleToken, handleTokenFrom]
    | Para =>
      cases children with
      | nil => simp [handleToken, handleTokenFrom]
      | cons x rest =>
        cases rest with
        | cons y tl => simp [handleToken, handleTokenFrom]
        | nil =>
          cases x with
          | node t' cs' => simp [handleToken, handleTokenFrom]
          | textTok t' s =>
            cases t' with
            | Para => simp [handleToken, handleTokenFrom]
            | Plain => simp [handleToken, handleTokenFrom]
            | Header => simp [handleToken, handleTokenFrom]
            | CodeBlock => simp [handleToken, handleTokenFrom]
            | Str =>
              simp only [handleToken, handleTokenFrom, capFirstMatch]
              cases hm : capFirstMatchFrom 0 s with
              | none =>
                simp only [hm, Option.isSome_none]
                constructor
                · intro hfalse
                  exact absurd hfalse (by simp)
                · rintro ⟨s', ty', id', m', heq, hm', hty'⟩
                  injection heq with e1 e2
                  injection e2 with e2 e3
                  injection e2 with e4 e5
                  rw [← e5] at hm'
                  rw [hm] at hm'
                  exact absurd hm' (by simp)
              | some v =>
                obtain ⟨ty, id, m⟩ := v
                simp only [hm]
                by_cases hty : ty = kYamlMetadataCapsuleType
                · rw [if_pos hty]
                  constructor
                  · intro hsome
                    exact ⟨s, ty, id, m, rfl, hm, hty⟩
                  · intro hex
                    rfl
                · rw [if_neg hty]
                  constructor
                  · intro hfalse
                    exact absurd hfalse (by simp)
                  · rintro ⟨s', ty', id', m', heq, hm', hty'⟩
                    exfalso
                    injection heq with e1 e2
                    injection e2 with e2 e3
                    injection e2 with e4 e5
                    rw [← e5] at hm'
                    rw [hm] at hm'
                    injection hm' with hv
                    injection hv with hv1 hv2
                    exact hty (by rw [hv1, hty'])
